import Mathlib

/-!
Verification of the discretization engine in `src/cpu/tbb/discretization.c`
(phase-field accelerator benchmarks, TBB backend).

The C code is shallowly embedded over the reals: `double` becomes `ℝ`,
`int` becomes `ℤ`, a 2-D row-pointer field `double**` becomes a total
function `ℤ → ℤ → ℝ`, and the C library functions `erf` and `sqrt` become
the mathematical error function (defined below from the Gaussian integral)
and `Real.sqrt`.  TBB ranges (`tbb::blocked_range2d<int>`) become a
`Range2D` structure holding the half-open row and column intervals, and the
nondeterministic chunking performed by `tbb::parallel_for` /
`tbb::parallel_reduce` becomes an explicit list of sub-ranges together with
an inductive description of the splits `blocked_range2d` can perform.
-/

set_option linter.unusedVariables false

noncomputable section

open MeasureTheory

/-- A 2-D field `double**`: total map from (first index, second index) to value.
The C code accesses `A[j][i]`; we write `A j i`. -/
def Grid : Type := ℤ → ℤ → ℝ

/-- The all-zero field (a freshly `calloc`-ed buffer). -/
def zeroGrid : Grid := fun _ _ => 0

/-- The C library error function: `erf x = 2/√π · ∫ t in 0..x, exp (-t²)`. -/
def erf (x : ℝ) : ℝ := 2 / Real.sqrt Real.pi * ∫ t in (0:ℝ)..x, Real.exp (-t ^ 2)

theorem erf_zero : erf 0 = 0 := by
  simp [erf]

theorem erf_nonneg {x : ℝ} (hx : 0 ≤ x) : 0 ≤ erf x := by
  have h1 : 0 ≤ ∫ t in (0:ℝ)..x, Real.exp (-t ^ 2) := by
    apply intervalIntegral.integral_nonneg hx
    intro u _
    positivity
  have h2 : 0 ≤ 2 / Real.sqrt Real.pi := by positivity
  exact mul_nonneg h2 h1

theorem erf_le_one {x : ℝ} (hx : 0 ≤ x) : erf x ≤ 1 := by
  have hpi : 0 < Real.sqrt Real.pi := Real.sqrt_pos.mpr Real.pi_pos
  have hint : (∫ t in (0:ℝ)..x, Real.exp (-t ^ 2)) ≤ Real.sqrt Real.pi / 2 := by
    have hIoc : (∫ t in (0:ℝ)..x, Real.exp (-t ^ 2))
        = ∫ t in Set.Ioc (0:ℝ) x, Real.exp (-t ^ 2) :=
      intervalIntegral.integral_of_le hx
    have hmono : (∫ t in Set.Ioc (0:ℝ) x, Real.exp (-t ^ 2))
        ≤ ∫ t in Set.Ioi (0:ℝ), Real.exp (-t ^ 2) := by
      apply setIntegral_mono_set
      · have : Integrable (fun t : ℝ => Real.exp (-1 * t ^ 2)) :=
          integrable_exp_neg_mul_sq one_pos
        simpa using this.integrableOn
      · filter_upwards with t
        positivity
      · filter_upwards with t ht
        exact Set.Ioc_subset_Ioi_self ht
    have hgauss : (∫ t in Set.Ioi (0:ℝ), Real.exp (-t ^ 2)) = Real.sqrt Real.pi / 2 := by
      have := integral_gaussian_Ioi 1
      simpa using this
    calc (∫ t in (0:ℝ)..x, Real.exp (-t ^ 2))
        = ∫ t in Set.Ioc (0:ℝ) x, Real.exp (-t ^ 2) := hIoc
      _ ≤ ∫ t in Set.Ioi (0:ℝ), Real.exp (-t ^ 2) := hmono
      _ = Real.sqrt Real.pi / 2 := hgauss
  have h2 : erf x ≤ 2 / Real.sqrt Real.pi * (Real.sqrt Real.pi / 2) := by
    apply mul_le_mul_of_nonneg_left hint
    positivity
  have h3 : 2 / Real.sqrt Real.pi * (Real.sqrt Real.pi / 2) = 1 := by
    field_simp
  linarith [h2, h3.le]

/-- Point update of a field: `upd M a b v` is `M` with `M[a][b] = v`. -/
def upd (M : Grid) (a b : ℤ) (v : ℝ) : Grid :=
  fun x y => if x = a ∧ y = b then v else M x y

/-- `set_mask(dx, dy, &nm, M)` from the source: writes `*nm = 1` and the five
5-point Laplacian coefficients into the caller-supplied mask `M`.  Returned as
the pair (value stored in `*nm`, updated mask). -/
def set_mask (dx dy : ℝ) (M : Grid) : ℤ × Grid :=
  (1,
    upd (upd (upd (upd (upd M
      0 1 (1.0 / (dy * dy)))
      1 0 (1.0 / (dx * dx)))
      1 1 (-2.0 * (dx * dx + dy * dy) / (dx * dx * dy * dy)))
      1 2 (1.0 / (dx * dx)))
      2 1 (1.0 / (dy * dy)))

/-- A `tbb::blocked_range2d<int>`: rows `[rb, re)` and columns `[cb, ce)`. -/
structure Range2D where
  rb : ℤ
  re : ℤ
  cb : ℤ
  ce : ℤ

/-- The range both `tbb::parallel_for` and `tbb::parallel_reduce` are handed in
this file: `blocked_range2d<int>(1, ny-1, tbb_bs, 1, nx-1, tbb_bs)`, whose rows
are `[1, ny-1)` and whose columns are `[1, nx-1)`. -/
def initRange (nx ny : ℤ) : Range2D :=
  ⟨1, ny - 1, 1, nx - 1⟩

/-- The grain size `tbb_bs` hardcoded at every call site in the source. -/
def tbb_bs : ℤ := 16

/-- `blocked_range2d::is_divisible()` with both grain sizes `g`:
some dimension is longer than the grain size. -/
def IsDivisible (g : ℤ) (r : Range2D) : Prop :=
  g < r.re - r.rb ∨ g < r.ce - r.cb

instance (g : ℤ) (r : Range2D) : Decidable (IsDivisible g r) := by
  unfold IsDivisible
  infer_instance

/-- The splitting constructor `blocked_range2d(blocked_range2d& r, split)`:
the dimension with more grains (`rows.size()*cols.grainsize()` against
`cols.size()*rows.grainsize()`; both grain sizes are `tbb_bs` at every call
site of the source) is halved at `begin + size/2`, producing two sub-ranges. -/
def splitRange (r : Range2D) : Range2D × Range2D :=
  if (r.re - r.rb) * tbb_bs < (r.ce - r.cb) * tbb_bs then
    (⟨r.rb, r.re, r.cb, r.cb + (r.ce - r.cb) / 2⟩,
     ⟨r.rb, r.re, r.cb + (r.ce - r.cb) / 2, r.ce⟩)
  else
    (⟨r.rb, r.rb + (r.re - r.rb) / 2, r.cb, r.ce⟩,
     ⟨r.rb + (r.re - r.rb) / 2, r.re, r.cb, r.ce⟩)

/-- The chunkings a TBB parallel algorithm with grain size `g` may present to
the body: either the whole range in one piece, or (when the range is
divisible) the concatenation of chunkings of the two halves produced by the
splitting constructor.  Which alternative occurs depends on the partitioner
and the thread scheduler at run time. -/
inductive TBBSplits (g : ℤ) : Range2D → List Range2D → Prop where
  | leaf (r : Range2D) : TBBSplits g r [r]
  | node (r : Range2D) (t1 t2 : List Range2D) :
      IsDivisible g r →
      TBBSplits g (splitRange r).1 t1 →
      TBBSplits g (splitRange r).2 t2 →
      TBBSplits g r (t1 ++ t2)

/-- The set of cells `(j, i)` of a range: `j` ranges over the columns and `i`
over the rows, exactly as the loop nests in the source consume a range. -/
def cellsOf (r : Range2D) : Finset (ℤ × ℤ) :=
  (Finset.Ico r.cb r.ce) ×ˢ (Finset.Ico r.rb r.re)

/-- `tiles` is a partition of the cells of `dom` into disjoint sub-ranges. -/
def IsPartition (tiles : List Range2D) (dom : Range2D) : Prop :=
  (tiles.map cellsOf).foldr (fun s t => s ∪ t) ∅ = cellsOf dom ∧
  List.Pairwise (fun r s => Disjoint (cellsOf r) (cellsOf s)) tiles

/-- The inner stencil accumulation of `ComputeConvolution2D::operator()`:
`value = Σ_{mj=-nm..nm} Σ_{mi=-nm..nm} M[mj+nm][mi+nm] * A[j+mj][i+mi]`. -/
def convValue (A M : Grid) (nm j i : ℤ) : ℝ :=
  ∑ mj ∈ Finset.Icc (-nm) nm, ∑ mi ∈ Finset.Icc (-nm) nm,
    M (mj + nm) (mi + nm) * A (j + mj) (i + mi)

/-- `ComputeConvolution2D::operator()` applied to range `r`: for each `j` in
`r.cols()` and `i` in `r.rows()` it stores the stencil sum into `C[j][i]`;
other cells keep the previous contents of `C`.  Because every written cell
depends only on the read-only inputs `A` and `M`, running this body over the
tiles of any partition of `r` produced by `tbb::parallel_for` yields the same
output field as one pass over `r`. -/
def ComputeConvolution2D (A C M : Grid) (nm : ℤ) (r : Range2D) : Grid :=
  fun j i =>
    if r.cb ≤ j ∧ j < r.ce ∧ r.rb ≤ i ∧ i < r.re then
      convValue A M nm j i
    else
      C j i

/-- `compute_convolution(A, C, M, nx, ny, nm)` from the source: the parallel
loop over `blocked_range2d<int>(1, ny-1, tbb_bs, 1, nx-1, tbb_bs)`. -/
def compute_convolution (A C M : Grid) (nx ny nm : ℤ) : Grid :=
  ComputeConvolution2D A C M nm (initRange nx ny)

/-- `StepInTime2D::operator()` applied to range `r`: explicit Euler update
`B[j][i] = A[j][i] + dt * D * C[j][i]` on the cells of `r`; other cells keep
the previous contents of `B`. -/
def StepInTime2D (A B C : Grid) (D dt : ℝ) (r : Range2D) : Grid :=
  fun j i =>
    if r.cb ≤ j ∧ j < r.ce ∧ r.rb ≤ i ∧ i < r.re then
      A j i + dt * D * C j i
    else
      B j i

/-- `step_in_time(A, B, C, nx, ny, D, dt, elapsed)` from the source: the
parallel Euler update followed by `*elapsed += dt`.  Returns the pair
(updated `B`, value stored back into `*elapsed`). -/
def step_in_time (A B C : Grid) (nx ny : ℤ) (D dt elapsed : ℝ) : Grid × ℝ :=
  (StepInTime2D A B C D dt (initRange nx ny), elapsed + dt)

/-- `analytical_value(x, t, D, chi, &c)`: stores `chi * (1 - erf(x / sqrt(4 D t)))`. -/
def analytical_value (x t D chi : ℝ) : ℝ :=
  chi * (1.0 - erf (x / Real.sqrt (4.0 * D * t)))

/-- The C integer division `ny / 2` (truncation toward zero). -/
def cdiv2 (n : ℤ) : ℤ := Int.tdiv n 2

/-- Distance to the left-wall source computed by
`ResidualSumOfSquares2D::operator()`:
`x = (j < ny/2) ? dx*(i-1) : sqrt(dx*dx*(i-1)*(i-1) + dy*dy*(j-ny/2)*(j-ny/2))`.
Here `nx` and `ny` are whatever the functor uses for those names. -/
def leftDist (dx dy : ℝ) (ny j i : ℤ) : ℝ :=
  if j < cdiv2 ny then
    dx * ((i - 1 : ℤ) : ℝ)
  else
    Real.sqrt (dx * dx * ((i - 1 : ℤ) : ℝ) * ((i - 1 : ℤ) : ℝ)
      + dy * dy * ((j - cdiv2 ny : ℤ) : ℝ) * ((j - cdiv2 ny : ℤ) : ℝ))

/-- Distance to the right-wall source computed by
`ResidualSumOfSquares2D::operator()`:
`x = (j >= ny/2) ? dx*(nx-2-i) : sqrt(dx*dx*(nx-2-i)*(nx-2-i) + dy*dy*(ny/2-j)*(ny/2-j))`. -/
def rightDist (dx dy : ℝ) (nx ny j i : ℤ) : ℝ :=
  if cdiv2 ny ≤ j then
    dx * ((nx - 2 - i : ℤ) : ℝ)
  else
    Real.sqrt (dx * dx * ((nx - 2 - i : ℤ) : ℝ) * ((nx - 2 - i : ℤ) : ℝ)
      + dy * dy * ((cdiv2 ny - j : ℤ) : ℝ) * ((cdiv2 ny - j : ℤ) : ℝ))

/-- The superposed analytical concentration `ca = cal + car` for cell `(j,i)`. -/
def caSuper (dx dy elapsed D c : ℝ) (nx ny j i : ℤ) : ℝ :=
  analytical_value (leftDist dx dy ny j i) elapsed D c
    + analytical_value (rightDist dx dy nx ny j i) elapsed D c

/-- One cell's contribution inside `ResidualSumOfSquares2D::operator()`:
`(ca - cn) * (ca - cn) / (double)((nx-2) * (ny-2))` with `cn = A[j][i]`. -/
def rssCell (A : Grid) (dx dy elapsed D c : ℝ) (nx ny j i : ℤ) : ℝ :=
  (caSuper dx dy elapsed D c nx ny j i - A j i)
    * (caSuper dx dy elapsed D c nx ny j i - A j i)
    / (((nx - 2) * (ny - 2) : ℤ) : ℝ)

/-- `ResidualSumOfSquares2D::operator()` on range `r`, started from a zero
accumulator.  Faithful to the source, the functor rederives
`nx = r.rows().size() + 2` and `ny = r.cols().size() + 2` from the range it is
handed, and loops `j` over `r.cols()` and `i` over `r.rows()`. -/
def ResidualSumOfSquares2D (A : Grid) (dx dy elapsed D c : ℝ) (r : Range2D) : ℝ :=
  ∑ j ∈ Finset.Ico r.cb r.ce, ∑ i ∈ Finset.Ico r.rb r.re,
    rssCell A dx dy elapsed D c (r.re - r.rb + 2) (r.ce - r.cb + 2) j i

/-- `check_solution(A, nx, ny, dx, dy, elapsed, D, bc, &rss)` from the source,
as executed by `tbb::parallel_reduce` over a chunking `tiles` of
`initRange nx ny`: each chunk is processed by a body whose accumulator
contributions add up (`join` is `my_rss += a.my_rss` and bodies start or split
at `my_rss = 0.0`), so the stored result is the sum of the per-chunk sums.
Only `bc[1][0]` is read from the boundary descriptor. -/
def check_solution (A : Grid) (nx ny : ℤ) (dx dy elapsed D : ℝ)
    (bc : Fin 2 → Fin 2 → ℝ) (tiles : List Range2D) : ℝ :=
  (tiles.map (ResidualSumOfSquares2D A dx dy elapsed D (bc 1 0))).sum

/-- Modelled from the spec and claim C2 wording (for comparison against
`check_solution`): the mean squared error between `A` and the superposition of
the two analytical solutions over the interior cells `1 ≤ j ≤ ny-2`,
`1 ≤ i ≤ nx-2`, with every distance and the normalization taken from the
global dimensions `nx`, `ny`.  The per-cell formula coincides with `rssCell`
applied to the global dimensions; the concentration of both sources is
`bc[1][0]`. -/
def rss_spec (A : Grid) (nx ny : ℤ) (dx dy elapsed D : ℝ)
    (bc : Fin 2 → Fin 2 → ℝ) : ℝ :=
  ∑ j ∈ Finset.Icc 1 (ny - 2), ∑ i ∈ Finset.Icc 1 (nx - 2),
    rssCell A dx dy elapsed D (bc 1 0) nx ny j i

/-- Concrete field for the residual counterexamples: every cell holds `10.0`. -/
def A10 : Grid := fun _ _ => 10

/-- Concrete boundary descriptor: both sources (and the unused entries) at `1.0`. -/
def bc1 : Fin 2 → Fin 2 → ℝ := fun _ _ => 1

/-- The full reduction range for `nx = 19`, `ny = 3`: rows `[1,2)`, columns `[1,18)`. -/
def fullR : Range2D := initRange 19 3

/-- First half produced by the TBB split of `fullR`: columns `[1,9)`. -/
def leftHalf : Range2D := ⟨1, 2, 1, 9⟩

/-- Second half produced by the TBB split of `fullR`: columns `[9,18)`. -/
def rightHalf : Range2D := ⟨1, 2, 9, 18⟩

theorem sqrt_four : Real.sqrt 4 = 2 := by
  rw [show (4:ℝ) = 2 ^ 2 by norm_num, Real.sqrt_sq (by norm_num : (0:ℝ) ≤ 2)]

theorem analytical_value_bounds {x : ℝ} (hx : 0 ≤ x) :
    0 ≤ analytical_value x 1 1 1 ∧ analytical_value x 1 1 1 ≤ 1 := by
  have h4 : (4.0 : ℝ) * 1 * 1 = 4 := by norm_num
  have hhalf : 0 ≤ x / 2 := by positivity
  have h0 := erf_nonneg hhalf
  have h1 := erf_le_one hhalf
  rw [analytical_value, h4, sqrt_four]
  constructor <;> nlinarith

theorem leftDist_nonneg {dx : ℝ} (hdx : 0 ≤ dx) (dy : ℝ) (ny j i : ℤ) (hi : 1 ≤ i) :
    0 ≤ leftDist dx dy ny j i := by
  unfold leftDist
  split
  · have h1 : (0:ℤ) ≤ i - 1 := by omega
    have h2 : (0:ℝ) ≤ ((i - 1 : ℤ) : ℝ) := by exact_mod_cast h1
    exact mul_nonneg hdx h2
  · exact Real.sqrt_nonneg _

theorem rightDist_nonneg {dx : ℝ} (hdx : 0 ≤ dx) (dy : ℝ) (nx ny j i : ℤ)
    (hi : i ≤ nx - 2) : 0 ≤ rightDist dx dy nx ny j i := by
  unfold rightDist
  split
  · have h1 : (0:ℤ) ≤ nx - 2 - i := by omega
    have h2 : (0:ℝ) ≤ ((nx - 2 - i : ℤ) : ℝ) := by exact_mod_cast h1
    exact mul_nonneg hdx h2
  · exact Real.sqrt_nonneg _

theorem rssCell_bounds (nx ny j i : ℤ) (hi1 : 1 ≤ i) (hi2 : i ≤ nx - 2)
    (hd : 0 < ((nx - 2) * (ny - 2) : ℤ)) :
    64 / (((nx - 2) * (ny - 2) : ℤ) : ℝ) ≤ rssCell A10 1 1 1 1 1 nx ny j i ∧
    rssCell A10 1 1 1 1 1 nx ny j i ≤ 100 / (((nx - 2) * (ny - 2) : ℤ) : ℝ) := by
  have hl : 0 ≤ leftDist 1 1 ny j i := leftDist_nonneg (by norm_num) 1 ny j i hi1
  have hr : 0 ≤ rightDist 1 1 nx ny j i := rightDist_nonneg (by norm_num) 1 nx ny j i hi2
  have hcal := analytical_value_bounds hl
  have hcar := analytical_value_bounds hr
  have hdR : (0:ℝ) < (((nx - 2) * (ny - 2) : ℤ) : ℝ) := by exact_mod_cast hd
  have hA : A10 j i = 10 := rfl
  unfold rssCell caSuper
  rw [hA]
  set u := analytical_value (leftDist 1 1 ny j i) 1 1 1 with hu
  set v := analytical_value (rightDist 1 1 nx ny j i) 1 1 1 with hv
  have hnum1 : (64:ℝ) ≤ (u + v - 10) * (u + v - 10) := by
    nlinarith [hcal.1, hcal.2, hcar.1, hcar.2]
  have hnum2 : (u + v - 10) * (u + v - 10) ≤ 100 := by
    nlinarith [hcal.1, hcal.2, hcar.1, hcar.2]
  constructor
  · exact (div_le_div_iff_of_pos_right hdR).mpr hnum1
  · exact (div_le_div_iff_of_pos_right hdR).mpr hnum2

theorem rss_full_le : ResidualSumOfSquares2D A10 1 1 1 1 1 fullR ≤ 100 := by
  have hexp : ResidualSumOfSquares2D A10 1 1 1 1 1 fullR
      = ∑ j ∈ Finset.Ico (1:ℤ) 18, ∑ i ∈ Finset.Ico (1:ℤ) 2,
          rssCell A10 1 1 1 1 1 3 19 j i := by
    simp only [ResidualSumOfSquares2D, fullR, initRange]
    norm_num
  rw [hexp]
  have hcell : ∀ j ∈ Finset.Ico (1:ℤ) 18,
      (∑ i ∈ Finset.Ico (1:ℤ) 2, rssCell A10 1 1 1 1 1 3 19 j i) ≤ 100 / 17 := by
    intro j hj
    rw [show Finset.Ico (1:ℤ) 2 = {1} from by decide, Finset.sum_singleton]
    have h := (rssCell_bounds 3 19 j 1 (by norm_num) (by norm_num) (by norm_num)).2
    norm_num at h
    exact h
  calc (∑ j ∈ Finset.Ico (1:ℤ) 18, ∑ i ∈ Finset.Ico (1:ℤ) 2,
          rssCell A10 1 1 1 1 1 3 19 j i)
      ≤ (Finset.Ico (1:ℤ) 18).card • (100 / 17 : ℝ) :=
        Finset.sum_le_card_nsmul _ _ _ hcell
    _ = 100 := by
        rw [show (Finset.Ico (1:ℤ) 18).card = 17 from by decide, nsmul_eq_mul]
        norm_num

theorem rss_leftHalf_ge : 64 ≤ ResidualSumOfSquares2D A10 1 1 1 1 1 leftHalf := by
  have hexp : ResidualSumOfSquares2D A10 1 1 1 1 1 leftHalf
      = ∑ j ∈ Finset.Ico (1:ℤ) 9, ∑ i ∈ Finset.Ico (1:ℤ) 2,
          rssCell A10 1 1 1 1 1 3 10 j i := by
    simp only [ResidualSumOfSquares2D, leftHalf]
    norm_num
  rw [hexp]
  have hcell : ∀ j ∈ Finset.Ico (1:ℤ) 9,
      (8:ℝ) ≤ ∑ i ∈ Finset.Ico (1:ℤ) 2, rssCell A10 1 1 1 1 1 3 10 j i := by
    intro j hj
    rw [show Finset.Ico (1:ℤ) 2 = {1} from by decide, Finset.sum_singleton]
    have h := (rssCell_bounds 3 10 j 1 (by norm_num) (by norm_num) (by norm_num)).1
    norm_num at h
    exact h
  calc (64:ℝ) = (Finset.Ico (1:ℤ) 9).card • (8:ℝ) := by
        rw [show (Finset.Ico (1:ℤ) 9).card = 8 from by decide, nsmul_eq_mul]
        norm_num
    _ ≤ _ := Finset.card_nsmul_le_sum _ _ _ hcell

theorem rss_rightHalf_ge : 64 ≤ ResidualSumOfSquares2D A10 1 1 1 1 1 rightHalf := by
  have hexp : ResidualSumOfSquares2D A10 1 1 1 1 1 rightHalf
      = ∑ j ∈ Finset.Ico (9:ℤ) 18, ∑ i ∈ Finset.Ico (1:ℤ) 2,
          rssCell A10 1 1 1 1 1 3 11 j i := by
    simp only [ResidualSumOfSquares2D, rightHalf]
    norm_num
  rw [hexp]
  have hcell : ∀ j ∈ Finset.Ico (9:ℤ) 18,
      (64 / 9 : ℝ) ≤ ∑ i ∈ Finset.Ico (1:ℤ) 2, rssCell A10 1 1 1 1 1 3 11 j i := by
    intro j hj
    rw [show Finset.Ico (1:ℤ) 2 = {1} from by decide, Finset.sum_singleton]
    have h := (rssCell_bounds 3 11 j 1 (by norm_num) (by norm_num) (by norm_num)).1
    norm_num at h
    exact h
  calc (64:ℝ) = (Finset.Ico (9:ℤ) 18).card • (64 / 9 : ℝ) := by
        rw [show (Finset.Ico (9:ℤ) 18).card = 9 from by decide, nsmul_eq_mul]
        norm_num
    _ ≤ _ := Finset.card_nsmul_le_sum _ _ _ hcell

theorem rss_spec_le : rss_spec A10 19 3 1 1 1 1 bc1 ≤ 100 := by
  have hexp : rss_spec A10 19 3 1 1 1 1 bc1
      = ∑ j ∈ Finset.Icc (1:ℤ) 1, ∑ i ∈ Finset.Icc (1:ℤ) 17,
          rssCell A10 1 1 1 1 1 19 3 j i := by
    simp only [rss_spec, bc1]
    norm_num
  rw [hexp, show Finset.Icc (1:ℤ) 1 = {1} from by decide, Finset.sum_singleton]
  have hcell : ∀ i ∈ Finset.Icc (1:ℤ) 17,
      rssCell A10 1 1 1 1 1 19 3 1 i ≤ 100 / 17 := by
    intro i hi
    rw [Finset.mem_Icc] at hi
    have h := (rssCell_bounds 19 3 1 i hi.1 (by omega) (by norm_num)).2
    norm_num at h
    exact h
  calc (∑ i ∈ Finset.Icc (1:ℤ) 17, rssCell A10 1 1 1 1 1 19 3 1 i)
      ≤ (Finset.Icc (1:ℤ) 17).card • (100 / 17 : ℝ) :=
        Finset.sum_le_card_nsmul _ _ _ hcell
    _ = 100 := by
        rw [show (Finset.Icc (1:ℤ) 17).card = 17 from by decide, nsmul_eq_mul]
        norm_num

/-- C1: the claim fails on the code.  `check_solution`'s reduction body
rederives `nx` and `ny` from the tile it is handed
(`nx = r.rows().size() + 2`, `ny = r.cols().size() + 2`), so the distances
and the normalization change with the tiling.  Both listed chunkings are
partitions of the interior of a 19 × 3 grid into tiles of edge ≥ 1 — the
one-piece full-domain pass (which TBB performs unsplit at grain size 17) and
the two-tile chunking that TBB's splitting constructor produces at the
hardcoded grain size 16 — yet on the constant field `A ≡ 10` with
`dx = dy = 1`, `t = 1`, `D = 1`, `bc ≡ 1` they store different values
(the first is ≤ 100, the second is ≥ 128). -/
theorem check_solution_not_tile_invariant :
    TBBSplits 17 fullR [fullR] ∧
    TBBSplits tbb_bs fullR [leftHalf, rightHalf] ∧
    IsPartition [fullR] fullR ∧
    IsPartition [leftHalf, rightHalf] fullR ∧
    check_solution A10 19 3 1 1 1 1 bc1 [fullR]
      ≠ check_solution A10 19 3 1 1 1 1 bc1 [leftHalf, rightHalf] := by
  have hsplit : splitRange fullR = (leftHalf, rightHalf) := rfl
  refine ⟨TBBSplits.leaf _, ?_, by constructor <;> decide, by constructor <;> decide, ?_⟩
  · exact TBBSplits.node fullR [leftHalf] [rightHalf]
      (by decide) (by rw [hsplit]; exact TBBSplits.leaf _)
      (by rw [hsplit]; exact TBBSplits.leaf _)
  · have e1 : check_solution A10 19 3 1 1 1 1 bc1 [fullR]
        = ResidualSumOfSquares2D A10 1 1 1 1 1 fullR := by
      simp [check_solution, bc1]
    have e2 : check_solution A10 19 3 1 1 1 1 bc1 [leftHalf, rightHalf]
        = ResidualSumOfSquares2D A10 1 1 1 1 1 leftHalf
          + ResidualSumOfSquares2D A10 1 1 1 1 1 rightHalf := by
      simp [check_solution, bc1]
    rw [e1, e2]
    intro heq
    linarith [rss_full_le, rss_leftHalf_ge, rss_rightHalf_ge]

/-- C2: the claim fails on the code.  At `nx = 19`, `ny = 3` the reduction is
divisible at the hardcoded grain size 16, and on the chunking TBB's splitting
constructor produces, the stored residual (≥ 128) differs from the value the
claim specifies (`rss_spec`, which is ≤ 100 on this input), because each tile
recomputes `nx`, `ny` from its own extent and the loop nest runs `j` over
`[1, nx-1)` and `i` over `[1, ny-1)` instead of the claimed interior. -/
theorem check_solution_ne_rss_spec :
    TBBSplits tbb_bs fullR [leftHalf, rightHalf] ∧
    check_solution A10 19 3 1 1 1 1 bc1 [leftHalf, rightHalf]
      ≠ rss_spec A10 19 3 1 1 1 1 bc1 := by
  have hsplit : splitRange fullR = (leftHalf, rightHalf) := rfl
  refine ⟨?_, ?_⟩
  · exact TBBSplits.node fullR [leftHalf] [rightHalf]
      (by decide) (by rw [hsplit]; exact TBBSplits.leaf _)
      (by rw [hsplit]; exact TBBSplits.leaf _)
  · have e2 : check_solution A10 19 3 1 1 1 1 bc1 [leftHalf, rightHalf]
        = ResidualSumOfSquares2D A10 1 1 1 1 1 leftHalf
          + ResidualSumOfSquares2D A10 1 1 1 1 1 rightHalf := by
      simp [check_solution, bc1]
    rw [e2]
    intro heq
    linarith [rss_spec_le, rss_leftHalf_ge, rss_rightHalf_ge]

/-- The all-ones field. -/
def oneGrid : Grid := fun _ _ => 1

/-- C3: the claim fails on the code.  Both parallel loops are run over
`blocked_range2d<int>(1, ny-1, tbb_bs, 1, nx-1, tbb_bs)`, whose rows span
`[1, ny-1)` and whose columns span `[1, nx-1)`, but the loop nest reads `j`
from `r.cols()` and `i` from `r.rows()`, so `j` actually runs over
`[1, nx-1)` and `i` over `[1, ny-1)`.  For `nx = 3`, `ny = 5` the claimed
interior cell `(j,i) = (3,1)` (which satisfies `1 ≤ j ≤ ny-2`,
`1 ≤ i ≤ nx-2`) is therefore never written: with `A ≡ 1`, `M ≡ 1`, `nm = 1`
and output buffer `C ≡ 0`, the output at `(3,1)` keeps the old value `0`
instead of the claimed stencil sum (which is `9`). -/
theorem compute_convolution_domain_transposed :
    compute_convolution oneGrid zeroGrid oneGrid 3 5 1 3 1 = zeroGrid 3 1 ∧
    compute_convolution oneGrid zeroGrid oneGrid 3 5 1 3 1
      ≠ convValue oneGrid oneGrid 1 3 1 := by
  have h0 : compute_convolution oneGrid zeroGrid oneGrid 3 5 1 3 1 = zeroGrid 3 1 := by
    rw [compute_convolution, ComputeConvolution2D, initRange]
    norm_num
  have h9 : convValue oneGrid oneGrid 1 3 1 = 9 := by
    rw [convValue, show Finset.Icc (-1:ℤ) 1 = {-1, 0, 1} from by decide]
    norm_num [oneGrid]
  refine ⟨h0, ?_⟩
  rw [h0, h9]
  norm_num [zeroGrid]

/-- C4: the range part of the claim fails on the code, for the same
rows/columns transposition as in C3: for `nx = 3`, `ny = 5` the claimed
interior cell `(j,i) = (3,1)` is never written, so `B[3][1]` keeps its old
value `0` instead of the claimed `A[3][1] + dt*D*C[3][1] = 2` (here
`A ≡ 1`, `C ≡ 1`, `D = dt = 1`, `B ≡ 0` initially).  The elapsed-time part
of the claim does hold: the returned accumulator is `elapsed + dt`. -/
theorem step_in_time_domain_transposed :
    (step_in_time oneGrid zeroGrid oneGrid 3 5 1 1 0).1 3 1 = zeroGrid 3 1 ∧
    (step_in_time oneGrid zeroGrid oneGrid 3 5 1 1 0).1 3 1
      ≠ oneGrid 3 1 + 1 * 1 * oneGrid 3 1 ∧
    (step_in_time oneGrid zeroGrid oneGrid 3 5 1 1 0).2 = 0 + 1 := by
  have h0 : (step_in_time oneGrid zeroGrid oneGrid 3 5 1 1 0).1 3 1 = zeroGrid 3 1 := by
    simp only [step_in_time, StepInTime2D, initRange]
    norm_num
  refine ⟨h0, ?_, rfl⟩
  rw [h0]
  norm_num [zeroGrid, oneGrid]

/-- C5: `set_mask` on a zero-initialized mask buffer (the source comment
notes `M is initialized to zero, so corners can be ignored`) returns stencil
radius 1 and produces the claimed 3×3 coefficient grid. -/
theorem set_mask_entries (dx dy : ℝ) (hdx : 0 < dx) (hdy : 0 < dy) :
    (set_mask dx dy zeroGrid).1 = 1 ∧
    (set_mask dx dy zeroGrid).2 1 1 = -2 * (dx ^ 2 + dy ^ 2) / (dx ^ 2 * dy ^ 2) ∧
    (set_mask dx dy zeroGrid).2 0 1 = 1 / dy ^ 2 ∧
    (set_mask dx dy zeroGrid).2 2 1 = 1 / dy ^ 2 ∧
    (set_mask dx dy zeroGrid).2 1 0 = 1 / dx ^ 2 ∧
    (set_mask dx dy zeroGrid).2 1 2 = 1 / dx ^ 2 ∧
    (set_mask dx dy zeroGrid).2 0 0 = 0 ∧
    (set_mask dx dy zeroGrid).2 0 2 = 0 ∧
    (set_mask dx dy zeroGrid).2 2 0 = 0 ∧
    (set_mask dx dy zeroGrid).2 2 2 = 0 := by
  refine ⟨rfl, ?_, ?_, ?_, ?_, ?_, ?_, ?_, ?_, ?_⟩ <;>
    · norm_num [set_mask, upd, zeroGrid]
      try ring

theorem set_mask_entries_witness :
    (0:ℝ) < 1 ∧
    ((set_mask 1 1 zeroGrid).1 = 1 ∧
    (set_mask 1 1 zeroGrid).2 1 1 = -2 * ((1:ℝ) ^ 2 + 1 ^ 2) / (1 ^ 2 * 1 ^ 2) ∧
    (set_mask 1 1 zeroGrid).2 0 1 = 1 / (1:ℝ) ^ 2 ∧
    (set_mask 1 1 zeroGrid).2 2 1 = 1 / (1:ℝ) ^ 2 ∧
    (set_mask 1 1 zeroGrid).2 1 0 = 1 / (1:ℝ) ^ 2 ∧
    (set_mask 1 1 zeroGrid).2 1 2 = 1 / (1:ℝ) ^ 2 ∧
    (set_mask 1 1 zeroGrid).2 0 0 = 0 ∧
    (set_mask 1 1 zeroGrid).2 0 2 = 0 ∧
    (set_mask 1 1 zeroGrid).2 2 0 = 0 ∧
    (set_mask 1 1 zeroGrid).2 2 2 = 0) :=
  ⟨by norm_num, set_mask_entries 1 1 (by norm_num) (by norm_num)⟩

/-- C6: all `(2·nm+1)²` coefficients produced by `set_mask` sum to exactly
zero in the real model (the center entry cancels the four orthogonal
neighbors). -/
theorem set_mask_sum_zero (dx dy : ℝ) (hdx : 0 < dx) (hdy : 0 < dy) :
    ∑ a ∈ Finset.Icc 0 (2 * (set_mask dx dy zeroGrid).1),
      ∑ b ∈ Finset.Icc 0 (2 * (set_mask dx dy zeroGrid).1),
        (set_mask dx dy zeroGrid).2 a b = 0 := by
  have h1 : (set_mask dx dy zeroGrid).1 = 1 := rfl
  rw [h1, show Finset.Icc (0:ℤ) (2 * 1) = {0, 1, 2} from by decide]
  norm_num [set_mask, upd, zeroGrid]
  field_simp
  ring

theorem set_mask_sum_zero_witness :
    (0:ℝ) < 1 ∧
    ∑ a ∈ Finset.Icc 0 (2 * (set_mask (1:ℝ) 1 zeroGrid).1),
      ∑ b ∈ Finset.Icc 0 (2 * (set_mask (1:ℝ) 1 zeroGrid).1),
        (set_mask (1:ℝ) 1 zeroGrid).2 a b = 0 :=
  ⟨by norm_num, set_mask_sum_zero 1 1 (by norm_num) (by norm_num)⟩

/-- Helper for C7: applying `compute_convolution` with the mask built by
`set_mask` (from positive spacings, on a zero-initialized mask buffer) to a
field that is constant everywhere, including the halo, yields exactly zero
at every cell the convolution engine actually computes
(`1 ≤ j < nx-1`, `1 ≤ i < ny-1`, its transposed iteration domain). -/
theorem convolution_constant_zero (dx dy k : ℝ) (hdx : 0 < dx) (hdy : 0 < dy)
    (C : Grid) (nx ny j i : ℤ)
    (hj1 : 1 ≤ j) (hj2 : j < nx - 1) (hi1 : 1 ≤ i) (hi2 : i < ny - 1) :
    compute_convolution (fun _ _ => k) C (set_mask dx dy zeroGrid).2 nx ny
      (set_mask dx dy zeroGrid).1 j i = 0 := by
  have h1 : (set_mask dx dy zeroGrid).1 = 1 := rfl
  simp only [compute_convolution, ComputeConvolution2D, initRange, h1]
  rw [if_pos ⟨hj1, hj2, hi1, hi2⟩]
  rw [convValue, show Finset.Icc (-1:ℤ) 1 = {-1, 0, 1} from by decide]
  norm_num [set_mask, upd, zeroGrid]
  field_simp
  ring

theorem convolution_constant_zero_witness :
    (0:ℝ) < 1 ∧ (1:ℤ) ≤ 1 ∧ (1:ℤ) < 4 - 1 ∧
    compute_convolution (fun _ _ => (5:ℝ)) oneGrid (set_mask 1 1 zeroGrid).2 4 4
      (set_mask 1 1 zeroGrid).1 1 1 = 0 :=
  ⟨by norm_num, by norm_num, by norm_num,
    convolution_constant_zero 1 1 5 (by norm_num) (by norm_num) oneGrid 4 4 1 1
      (by norm_num) (by norm_num) (by norm_num) (by norm_num)⟩

/-- Helper for C8: with diffusivity `D = 0`, the Euler update writes
`B[j][i] = A[j][i]` exactly, for any field `A`, Laplacian field `C` and time
step `dt`, at every cell the time integrator actually computes
(`1 ≤ j < nx-1`, `1 ≤ i < ny-1`, its transposed iteration domain). -/
theorem step_zero_diffusivity (A B C : Grid) (nx ny : ℤ) (dt elapsed : ℝ)
    (j i : ℤ) (hj1 : 1 ≤ j) (hj2 : j < nx - 1) (hi1 : 1 ≤ i) (hi2 : i < ny - 1) :
    (step_in_time A B C nx ny 0 dt elapsed).1 j i = A j i := by
  simp only [step_in_time, StepInTime2D, initRange]
  rw [if_pos ⟨hj1, hj2, hi1, hi2⟩]
  ring

theorem step_zero_diffusivity_witness :
    (1:ℤ) ≤ 1 ∧ (1:ℤ) < 4 - 1 ∧
    (step_in_time oneGrid zeroGrid A10 4 4 0 3 0).1 1 1 = oneGrid 1 1 :=
  ⟨by norm_num, by norm_num,
    step_zero_diffusivity oneGrid zeroGrid A10 4 4 3 0 1 1
      (by norm_num) (by norm_num) (by norm_num) (by norm_num)⟩

/-- C9: `analytical_value` stores `chi * (1 - erf(x / sqrt(4 D t)))`, and at
`x = 0`, `t = 1`, `D = 1`, `chi = 1` it stores exactly `1` since `erf 0 = 0`. -/
theorem analytical_value_formula (x t D chi : ℝ) (ht : 0 < t) (hD : 0 < D) :
    analytical_value x t D chi = chi * (1 - erf (x / Real.sqrt (4 * D * t))) ∧
    analytical_value 0 1 1 1 = 1 := by
  constructor
  · norm_num [analytical_value]
  · rw [analytical_value]
    norm_num [erf_zero]

theorem analytical_value_formula_witness :
    (0:ℝ) < 1 ∧
    (analytical_value 0 1 1 1 = 1 * (1 - erf (0 / Real.sqrt (4 * 1 * 1))) ∧
      analytical_value 0 1 1 1 = 1) :=
  ⟨by norm_num, analytical_value_formula 0 1 1 1 (by norm_num) (by norm_num)⟩

/-- C10: `check_solution` reads the boundary descriptor only at `bc[1][0]`
(line `ResidualSumOfSquares2D R(A, dx, dy, elapsed, D, bc[1][0])`), used as
the concentration of both analytical sources; two descriptors agreeing there
produce the same stored residual, for any chunking of the reduction. -/
theorem check_solution_depends_only_on_bc10 (A : Grid) (nx ny : ℤ)
    (dx dy elapsed D : ℝ) (bc bc2 : Fin 2 → Fin 2 → ℝ) (tiles : List Range2D)
    (h : bc 1 0 = bc2 1 0) :
    check_solution A nx ny dx dy elapsed D bc tiles
      = check_solution A nx ny dx dy elapsed D bc2 tiles := by
  unfold check_solution
  rw [h]

/-- Boundary descriptor agreeing with `bcB` only at index `[1][0]`. -/
def bcA : Fin 2 → Fin 2 → ℝ := fun p q => if p = 1 ∧ q = 0 then 2 else 5

/-- Boundary descriptor agreeing with `bcA` only at index `[1][0]`. -/
def bcB : Fin 2 → Fin 2 → ℝ := fun p q => if p = 1 ∧ q = 0 then 2 else 7

theorem check_solution_depends_only_on_bc10_witness :
    bcA 1 0 = bcB 1 0 ∧
    bcA 0 0 ≠ bcB 0 0 ∧ bcA 0 1 ≠ bcB 0 1 ∧ bcA 1 1 ≠ bcB 1 1 ∧
    check_solution A10 19 3 1 1 1 1 bcA [fullR]
      = check_solution A10 19 3 1 1 1 1 bcB [fullR] :=
  ⟨by norm_num [bcA, bcB], by norm_num [bcA, bcB], by norm_num [bcA, bcB],
    by norm_num [bcA, bcB],
    check_solution_depends_only_on_bc10 A10 19 3 1 1 1 1 bcA bcB [fullR]
      (by norm_num [bcA, bcB])⟩

/-- Supporting fact: on a square grid (`nx = ny = n`, the benchmark default)
a single full-domain reduction pass of `check_solution` computes exactly the
value described by the spec (`rss_spec`): with equal extents the crossed
rows/columns and the tile-rederived `nx`, `ny` coincide with the intended
ones.  The deviations exhibited for C1-C2 are therefore invisible in the
square, unsplit configuration. -/
theorem check_solution_single_tile_square (A : Grid) (n : ℤ) (dx dy elapsed D : ℝ)
    (bc : Fin 2 → Fin 2 → ℝ) :
    check_solution A n n dx dy elapsed D bc [initRange n n]
      = rss_spec A n n dx dy elapsed D bc := by
  have hn : n - 1 - 1 + 2 = n := by ring
  have hr : Finset.Ico (1:ℤ) (n - 1) = Finset.Icc 1 (n - 2) := by
    ext x
    simp only [Finset.mem_Ico, Finset.mem_Icc]
    omega
  simp only [check_solution, List.map_cons, List.map_nil, List.sum_cons,
    List.sum_nil, add_zero, ResidualSumOfSquares2D, initRange, rss_spec, hn, hr]

/-- C7: the claim fails on the code.  With `nx = 3`, `ny = 5`, a field
constant at `5` everywhere including the halo, the mask built by `set_mask`
from `dx = dy = 1`, and an output buffer previously holding `1` everywhere,
the claimed interior cell `(j,i) = (3,1)` (it satisfies `1 ≤ j ≤ ny-2 = 3`,
`1 ≤ i ≤ nx-2 = 1`) is never written — the loop nest runs `j` over
`[1, nx-1)` and `i` over `[1, ny-1)`, the transposition exhibited for C3 —
so the output there keeps the stale value `1` instead of the exact `0` the
claim requires.  At a cell the engine does compute, `(1,1)`, the output is
exactly `0`, confirming the numerical cancellation the claim is about. -/
theorem convolution_constant_stale_interior_cell :
    compute_convolution (fun _ _ => (5:ℝ)) oneGrid (set_mask 1 1 zeroGrid).2 3 5
      (set_mask 1 1 zeroGrid).1 3 1 = oneGrid 3 1 ∧
    compute_convolution (fun _ _ => (5:ℝ)) oneGrid (set_mask 1 1 zeroGrid).2 3 5
      (set_mask 1 1 zeroGrid).1 3 1 ≠ 0 ∧
    compute_convolution (fun _ _ => (5:ℝ)) oneGrid (set_mask 1 1 zeroGrid).2 3 5
      (set_mask 1 1 zeroGrid).1 1 1 = 0 := by
  have h0 : compute_convolution (fun _ _ => (5:ℝ)) oneGrid (set_mask 1 1 zeroGrid).2 3 5
      (set_mask 1 1 zeroGrid).1 3 1 = oneGrid 3 1 := by
    rw [compute_convolution, ComputeConvolution2D, initRange]
    norm_num
  refine ⟨h0, ?_, ?_⟩
  · rw [h0]
    norm_num [oneGrid]
  · exact convolution_constant_zero 1 1 5 (by norm_num) (by norm_num) oneGrid 3 5 1 1
      (by norm_num) (by norm_num) (by norm_num) (by norm_num)

/-- C8: the claim fails on the code.  With `nx = 3`, `ny = 5`, `D = 0`,
`dt = 3`, `A ≡ 1` and `B` previously holding `0` everywhere, the claimed
interior cell `(j,i) = (3,1)` (it satisfies `1 ≤ j ≤ ny-2 = 3`,
`1 ≤ i ≤ nx-2 = 1`) is never written — the same rows/columns transposition
exhibited for C4 — so `B[3][1]` keeps its stale value `0` instead of being
exactly equal to `A[3][1] = 1` as the claim requires.  At a cell the
integrator does compute, `(1,1)`, the output equals `A[1][1]` exactly,
confirming the `D = 0` idempotence the claim is about. -/
theorem step_zero_diffusivity_stale_interior_cell :
    (step_in_time oneGrid zeroGrid A10 3 5 0 3 0).1 3 1 = zeroGrid 3 1 ∧
    (step_in_time oneGrid zeroGrid A10 3 5 0 3 0).1 3 1 ≠ oneGrid 3 1 ∧
    (step_in_time oneGrid zeroGrid A10 3 5 0 3 0).1 1 1 = oneGrid 1 1 := by
  have h0 : (step_in_time oneGrid zeroGrid A10 3 5 0 3 0).1 3 1 = zeroGrid 3 1 := by
    simp only [step_in_time, StepInTime2D, initRange]
    norm_num
  refine ⟨h0, ?_, ?_⟩
  · rw [h0]
    norm_num [zeroGrid, oneGrid]
  · exact step_zero_diffusivity oneGrid zeroGrid A10 3 5 3 0 1 1
      (by norm_num) (by norm_num) (by norm_num) (by norm_num)
